import Mathlib

/-!
Verification of the infinite-terrain streaming core of `src/main.js`.

The embedding uses exact rationals for JavaScript numbers and integers for
chunk coordinates.  The three.js `ImprovedNoise` generator is an external
library module (not part of this repository's sources), so the noise
generator is a parameter `noise : Noise`; every theorem about the core is
proved for an arbitrary such generator, except for the amplitude bound,
which uses the spec's description of the generator's range.
-/

namespace TerrainGen

/-- Constants from `src/main.js` lines 6-9. -/
def CHUNK_SIZE : ℚ := 10

def RENDER_DISTANCE : ℤ := 3

def GRID_DIVISIONS : ℕ := 15

def HEIGHT_SCALE : ℚ := 3

/-- Spec constant (section 4.1): the feature-frequency factor (the source
keeps it as the local constant `scale` inside `getNoiseHeight`). -/
def NOISE_SCALE : ℚ := 0.1

/-- The type of the 3-D noise generator (`noise.noise(x, y, z)` in the
source); an arbitrary pure function of three coordinates. -/
abbrev Noise := ℚ → ℚ → ℚ → ℚ

/-- Embeds `getNoiseHeight` (src/main.js lines 106-109). -/
def getNoiseHeight (noise : Noise) (x z : ℚ) : ℚ :=
  let scale : ℚ := 0.1
  HEIGHT_SCALE * noise (x * scale) 0 (z * scale)

/-- A point pushed into a position buffer (one `positions.push(x, y, z)`). -/
structure Vec3 where
  x : ℚ
  y : ℚ
  z : ℚ
deriving DecidableEq

/-- A chunk group: the children line geometries (in `chunkGroup.add` order,
each child kept as its vertex list) and the group's world placement set by
`chunkGroup.position.set` (src/main.js line 141). -/
structure ChunkGroup where
  lines : List (List Vec3)
  pos : Vec3
deriving DecidableEq

/-- Vertices of the first line family of `createChunk` for sweep index `i`:
`x1 = (i/GRID_DIVISIONS)*CHUNK_SIZE`, `z1 = (j/GRID_DIVISIONS)*CHUNK_SIZE`,
height sampled at world coordinates (src/main.js lines 121-123). -/
def line1Verts (noise : Noise) (cx cz : ℤ) (i : ℕ) : List Vec3 :=
  (List.range (GRID_DIVISIONS + 1)).map fun (j : ℕ) =>
    let x1 : ℚ := ((i : ℚ) / (GRID_DIVISIONS : ℚ)) * CHUNK_SIZE
    let z1 : ℚ := ((j : ℚ) / (GRID_DIVISIONS : ℚ)) * CHUNK_SIZE
    { x := x1
      y := getNoiseHeight noise ((cx : ℚ) * CHUNK_SIZE + x1) ((cz : ℚ) * CHUNK_SIZE + z1)
      z := z1 }

/-- Vertices of the transposed line family of `createChunk` for sweep index
`i` (src/main.js lines 125-127). -/
def line2Verts (noise : Noise) (cx cz : ℤ) (i : ℕ) : List Vec3 :=
  (List.range (GRID_DIVISIONS + 1)).map fun (j : ℕ) =>
    let x2 : ℚ := ((j : ℚ) / (GRID_DIVISIONS : ℚ)) * CHUNK_SIZE
    let z2 : ℚ := ((i : ℚ) / (GRID_DIVISIONS : ℚ)) * CHUNK_SIZE
    { x := x2
      y := getNoiseHeight noise ((cx : ℚ) * CHUNK_SIZE + x2) ((cz : ℚ) * CHUNK_SIZE + z2)
      z := z2 }

/-- Embeds `createChunk` (src/main.js lines 111-143): for each
`i ≤ GRID_DIVISIONS` two line geometries are added to the group, and the
group is placed at `(x*CHUNK_SIZE, 0, z*CHUNK_SIZE)`. -/
def createChunk (noise : Noise) (cx cz : ℤ) : ChunkGroup :=
  { lines := (List.range (GRID_DIVISIONS + 1)).flatMap fun i =>
      [line1Verts noise cx cz i, line2Verts noise cx cz i]
    pos := { x := (cx : ℚ) * CHUNK_SIZE, y := 0, z := (cz : ℚ) * CHUNK_SIZE } }

/-- All vertices of a chunk group, across all its line children. -/
def chunkVertices (c : ChunkGroup) : List Vec3 := c.lines.flatMap id

/-- Decimal rendering of a natural number, mirroring JavaScript string
conversion of a non-negative integer value. -/
def renderNat (n : ℕ) : List Char :=
  if n = 0 then ['0']
  else ((Nat.digits 10 n).map fun d => Char.ofNat (48 + d)).reverse

/-- Rendering of an integer as JavaScript template interpolation `${x}`
produces for an integer-valued number. -/
def renderInt : ℤ → List Char
  | Int.ofNat n => renderNat n
  | Int.negSucc n => '-' :: renderNat (n + 1)

/-- Embeds the key expression `` `${x},${z}` `` (src/main.js line 151). -/
def chunkKey (cx cz : ℤ) : List Char := renderInt cx ++ ',' :: renderInt cz

/-- Embeds `String.prototype.split(',')`. -/
def splitOnComma : List Char → List (List Char)
  | [] => [[]]
  | c :: rest =>
    if c = ',' then [] :: splitOnComma rest
    else
      match splitOnComma rest with
      | [] => [[c]]
      | s :: ss => (c :: s) :: ss

/-- Value of a digit string (little-endian after reversal). -/
def parseDigits (cs : List Char) : ℕ :=
  Nat.ofDigits 10 ((cs.map fun c => c.toNat - 48).reverse)

/-- Embeds JavaScript `Number(s)` on the strings the program produces
(an optional leading minus sign followed by decimal digits; other inputs
never occur, for them this model returns an unspecified integer where
JavaScript would give `NaN`). -/
def parseNumber (cs : List Char) : ℤ :=
  if cs.head? = some '-' then -(parseDigits cs.tail : ℤ) else (parseDigits cs : ℤ)

/-- Embeds `key.split(',').map(Number)` destructured as `[chunkX, chunkZ]`
(src/main.js line 161); keys not of the produced two-part shape never occur. -/
def parseKey (k : List Char) : ℤ × ℤ :=
  match splitOnComma k with
  | a :: b :: _ => (parseNumber a, parseNumber b)
  | [a] => (parseNumber a, 0)
  | [] => (0, 0)

/-- State of the streaming manager: the `chunks` map (src/main.js line 34,
a JavaScript `Map` kept here as its insertion-ordered entry list) and the
terrain-chunk members of the scene (the objects passed to `scene.add` /
`scene.remove` by the streaming code). -/
structure SMState where
  chunks : List (List Char × ChunkGroup)
  scene : List ChunkGroup
deriving DecidableEq

/-- Embeds `chunks.get(key)` / first-match association-list lookup. -/
def findChunk : List (List Char × ChunkGroup) → List Char → Option ChunkGroup
  | [], _ => none
  | (k, c) :: rest, key => if k = key then some c else findChunk rest key

/-- Embeds `chunks.has(key)` (src/main.js line 152). -/
def hasKey (l : List (List Char × ChunkGroup)) (k : List Char) : Bool :=
  (findChunk l k).isSome

/-- Embeds `scene.remove(chunk)`: drops the first occurrence of the object
from the scene's child list. -/
def removeFirst : List ChunkGroup → ChunkGroup → List ChunkGroup
  | [], _ => []
  | c :: rest, target => if c = target then rest else c :: removeFirst rest target

/-- The consecutive integers `a, a+1, ..., a+n-1` (a `for` loop range). -/
def intRange (a : ℤ) (n : ℕ) : List ℤ := (List.range n).map fun (k : ℕ) => a + k

/-- Coordinates visited by the nested insertion loops of `updateChunks`
(src/main.js lines 149-150), in loop order: `x` outer, `z` inner, each from
`player - RENDER_DISTANCE` to `player + RENDER_DISTANCE` inclusive. -/
def windowCoords (pcx pcz : ℤ) : List (ℤ × ℤ) :=
  (intRange (pcx - RENDER_DISTANCE) (2 * RENDER_DISTANCE.toNat + 1)).flatMap fun x =>
    (intRange (pcz - RENDER_DISTANCE) (2 * RENDER_DISTANCE.toNat + 1)).map fun z => (x, z)

/-- One iteration of the insertion loop body (src/main.js lines 151-156):
if the key is absent, create the chunk, insert it into the map and add it
to the scene.  The second component logs the coordinates for which
`createChunk` was called during this update. -/
def insertStep (noise : Noise) (p : SMState × List (ℤ × ℤ)) (c : ℤ × ℤ) :
    SMState × List (ℤ × ℤ) :=
  if hasKey p.1.chunks (chunkKey c.1 c.2) then p
  else
    ({ chunks := p.1.chunks ++ [(chunkKey c.1 c.2, createChunk noise c.1 c.2)]
       scene := p.1.scene ++ [createChunk noise c.1 c.2] }, p.2 ++ [c])

/-- The eviction test of src/main.js lines 162-163:
`Math.abs(chunkX - playerChunkX) > RENDER_DISTANCE || Math.abs(chunkZ - playerChunkZ) > RENDER_DISTANCE`. -/
def chebOutside (pcx pcz cx cz : ℤ) : Bool :=
  decide (RENDER_DISTANCE < |cx - pcx|) || decide (RENDER_DISTANCE < |cz - pcz|)

/-- The eviction test applied to a map key, as the eviction loop does
(src/main.js lines 161-163): parse the key back to coordinates and compare
each axis distance with `RENDER_DISTANCE`. -/
def outKey (pcx pcz : ℤ) (k : List Char) : Bool :=
  chebOutside pcx pcz (parseKey k).1 (parseKey k).2

/-- Embeds `updateChunks` (src/main.js lines 145-168) for reference
position `(px, pz)` (the character's position when the call is made).
Besides the updated state it returns the coordinates freshly created and
the entries evicted during this call, so that theorems can speak about the
side effects a call performs. -/
def updateChunks (noise : Noise) (st : SMState) (px pz : ℚ) :
    SMState × List (ℤ × ℤ) × List (List Char × ChunkGroup) :=
  let pcx : ℤ := ⌊px / CHUNK_SIZE⌋
  let pcz : ℤ := ⌊pz / CHUNK_SIZE⌋
  let ins := (windowCoords pcx pcz).foldl (insertStep noise) (st, [])
  let evicted := ins.1.chunks.filter fun kc => outKey pcx pcz kc.1
  ({ chunks := ins.1.chunks.filter fun kc => !(outKey pcx pcz kc.1)
     scene := evicted.foldl (fun sc kc => removeFirst sc kc.2) ins.1.scene },
   ins.2, evicted)

/-- A call of `getNoiseHeight` as it occurs inside the running program:
the program's mutable streaming state is threaded through the call.  The
body of `getNoiseHeight` (src/main.js lines 106-109) reads none of that
state and writes none of it, which this embedding makes explicit. -/
def heightCall (st : SMState) (noise : Noise) (x z : ℚ) : ℚ × SMState :=
  (getNoiseHeight noise x z, st)

/-- Keys of a chunk map entry list are exactly the strings `chunkKey`
produces; this holds for every state the program can reach, since line 151
of src/main.js is the only site that creates keys. -/
def WFKeys (l : List (List Char × ChunkGroup)) : Prop :=
  ∀ kc ∈ l, kc.1 = chunkKey (parseKey kc.1).1 (parseKey kc.1).2

/-- Invariant of every reachable streaming-manager state: keys are
well-formed, each entry's chunk is the one `createChunk` builds for the
entry's coordinate, keys are distinct (a JavaScript `Map` property), and
the scene's terrain children are exactly the cached chunks in map order. -/
def Inv (noise : Noise) (st : SMState) : Prop :=
  WFKeys st.chunks ∧
  (∀ kc ∈ st.chunks, kc.2 = createChunk noise (parseKey kc.1).1 (parseKey kc.1).2) ∧
  (st.chunks.map Prod.fst).Nodup ∧
  st.scene = st.chunks.map Prod.snd

/-- Modelled from the spec: src/main.js line 35 instantiates the three.js
`ImprovedNoise` generator, whose implementation is not part of this
repository; section 4.1 of the spec describes it as a Perlin-family
gradient-noise function, whose normalized output lies in `[-1, 1]`. -/
def NoiseInUnitRange (noise : Noise) : Prop :=
  ∀ x y z : ℚ, |noise x y z| ≤ 1

/-- A trivial generator used to instantiate witnesses. -/
def noise0 : Noise := fun _ _ _ => 0

/-! ### Keys: rendering, splitting and parsing round-trip -/

lemma digitChar_sub (d : ℕ) (hd : d < 10) : (Char.ofNat (48 + d)).toNat - 48 = d := by
  interval_cases d <;> rfl

lemma digitChar_ne_comma (d : ℕ) (hd : d < 10) : Char.ofNat (48 + d) ≠ ',' := by
  interval_cases d <;> decide

lemma digitChar_ne_minus (d : ℕ) (hd : d < 10) : Char.ofNat (48 + d) ≠ '-' := by
  interval_cases d <;> decide

lemma mem_renderNat (n : ℕ) (c : Char) (hc : c ∈ renderNat n) : c ≠ ',' ∧ c ≠ '-' := by
  unfold renderNat at hc
  by_cases h0 : n = 0
  · rw [if_pos h0] at hc
    simp only [List.mem_singleton] at hc
    subst hc
    exact ⟨by decide, by decide⟩
  · rw [if_neg h0] at hc
    simp only [List.mem_reverse, List.mem_map] at hc
    obtain ⟨d, hd, rfl⟩ := hc
    have hd10 : d < 10 := Nat.digits_lt_base (by norm_num) hd
    exact ⟨digitChar_ne_comma d hd10, digitChar_ne_minus d hd10⟩

lemma renderNat_ne_nil (n : ℕ) : renderNat n ≠ [] := by
  unfold renderNat
  by_cases h0 : n = 0
  · simp [h0]
  · rw [if_neg h0]
    simp [Nat.digits_ne_nil_iff_ne_zero, h0]

lemma parseDigits_renderNat (n : ℕ) : parseDigits (renderNat n) = n := by
  unfold parseDigits renderNat
  by_cases h0 : n = 0
  · subst h0; rfl
  · rw [if_neg h0, List.map_reverse, List.reverse_reverse, List.map_map]
    have hmap : (Nat.digits 10 n).map ((fun c => c.toNat - 48) ∘ fun d => Char.ofNat (48 + d))
        = Nat.digits 10 n := by
      have := List.map_congr_left
        (l := Nat.digits 10 n)
        (f := (fun c => c.toNat - 48) ∘ fun d => Char.ofNat (48 + d)) (g := id)
        fun d hd => digitChar_sub d (Nat.digits_lt_base (by norm_num) hd)
      rw [this, List.map_id]
    rw [hmap, Nat.ofDigits_digits]

lemma parseNumber_renderInt (i : ℤ) : parseNumber (renderInt i) = i := by
  cases i with
  | ofNat n =>
    show parseNumber (renderNat n) = Int.ofNat n
    rcases hh : (renderNat n).head? with _ | c
    · exact absurd (List.head?_eq_none_iff.mp hh) (renderNat_ne_nil n)
    · have hcm : c ∈ renderNat n := List.mem_of_mem_head? hh
      have hne : c ≠ '-' := (mem_renderNat n c hcm).2
      unfold parseNumber
      rw [hh, if_neg (show ¬(some c = some '-') by simpa using hne), parseDigits_renderNat]
      rfl
  | negSucc n =>
    show parseNumber ('-' :: renderNat (n + 1)) = Int.negSucc n
    unfold parseNumber
    rw [List.head?_cons, if_pos rfl, List.tail_cons, parseDigits_renderNat, Int.negSucc_eq]
    push_cast
    ring

lemma mem_renderInt_ne_comma (i : ℤ) : ∀ c ∈ renderInt i, c ≠ ',' := by
  intro c hc
  cases i with
  | ofNat n => exact (mem_renderNat n c hc).1
  | negSucc n =>
    rcases List.mem_cons.mp hc with rfl | hc'
    · decide
    · exact (mem_renderNat (n + 1) c hc').1

lemma splitOnComma_of_no_comma (a : List Char) (h : ∀ c ∈ a, c ≠ ',') :
    splitOnComma a = [a] := by
  induction a with
  | nil => rfl
  | cons c rest ih =>
    have hc : c ≠ ',' := h c (List.mem_cons_self c rest)
    have hr := ih fun x hx => h x (List.mem_cons_of_mem c hx)
    rw [splitOnComma, if_neg hc, hr]

lemma splitOnComma_append (a b : List Char) (h : ∀ c ∈ a, c ≠ ',') :
    splitOnComma (a ++ ',' :: b) = a :: splitOnComma b := by
  induction a with
  | nil => rw [List.nil_append, splitOnComma, if_pos rfl]
  | cons c rest ih =>
    have hc : c ≠ ',' := h c (List.mem_cons_self c rest)
    have hr := ih fun x hx => h x (List.mem_cons_of_mem c hx)
    rw [List.cons_append, splitOnComma, if_neg hc, hr]

lemma parseKey_chunkKey (cx cz : ℤ) : parseKey (chunkKey cx cz) = (cx, cz) := by
  unfold parseKey chunkKey
  rw [splitOnComma_append _ _ (mem_renderInt_ne_comma cx),
    splitOnComma_of_no_comma _ (mem_renderInt_ne_comma cz)]
  simp [parseNumber_renderInt]

lemma chunkKey_inj {cx cz cx' cz' : ℤ} (h : chunkKey cx cz = chunkKey cx' cz') :
    cx = cx' ∧ cz = cz' := by
  have h2 := congrArg parseKey h
  rw [parseKey_chunkKey, parseKey_chunkKey, Prod.mk.injEq] at h2
  exact h2

/-! ### Chunk geometry -/

lemma localCoord_bounds (i : ℕ) (hi : i < GRID_DIVISIONS + 1) :
    0 ≤ ((i : ℚ) / (GRID_DIVISIONS : ℚ)) * CHUNK_SIZE ∧
      ((i : ℚ) / (GRID_DIVISIONS : ℚ)) * CHUNK_SIZE ≤ CHUNK_SIZE := by
  have h15 : (i : ℚ) ≤ 15 := by
    have : i ≤ 15 := by
      have := Nat.lt_succ_iff.mp (by simpa [GRID_DIVISIONS] using hi)
      simpa using this
    exact_mod_cast this
  have h0 : (0 : ℚ) ≤ (i : ℚ) := Nat.cast_nonneg i
  constructor
  · simp only [GRID_DIVISIONS, CHUNK_SIZE]
    positivity
  · simp only [GRID_DIVISIONS, CHUNK_SIZE]
    push_cast
    nlinarith

lemma chunkVertices_mem (noise : Noise) (cx cz : ℤ) (v : Vec3)
    (hv : v ∈ chunkVertices (createChunk noise cx cz)) :
    v.y = getNoiseHeight noise ((cx : ℚ) * CHUNK_SIZE + v.x) ((cz : ℚ) * CHUNK_SIZE + v.z) ∧
      0 ≤ v.x ∧ v.x ≤ CHUNK_SIZE ∧ 0 ≤ v.z ∧ v.z ≤ CHUNK_SIZE := by
  simp only [chunkVertices, createChunk, List.mem_flatMap, List.mem_range, id] at hv
  obtain ⟨line, ⟨i, hi, hline⟩, hvl⟩ := hv
  have hcase : line = line1Verts noise cx cz i ∨ line = line2Verts noise cx cz i := by
    rcases List.mem_cons.mp hline with h | h
    · exact Or.inl h
    · exact Or.inr (by simpa using h)
  rcases hcase with rfl | rfl
  · unfold line1Verts at hvl
    obtain ⟨j, hjr, heq⟩ := List.mem_map.mp hvl
    have hj : j < GRID_DIVISIONS + 1 := List.mem_range.mp hjr
    subst heq
    exact ⟨rfl, (localCoord_bounds i hi).1, (localCoord_bounds i hi).2,
      (localCoord_bounds j hj).1, (localCoord_bounds j hj).2⟩
  · unfold line2Verts at hvl
    obtain ⟨j, hjr, heq⟩ := List.mem_map.mp hvl
    have hj : j < GRID_DIVISIONS + 1 := List.mem_range.mp hjr
    subst heq
    exact ⟨rfl, (localCoord_bounds j hj).1, (localCoord_bounds j hj).2,
      (localCoord_bounds i hi).1, (localCoord_bounds i hi).2⟩

lemma vertex1_mem (noise : Noise) (cx cz : ℤ) (i j : ℕ)
    (hi : i < GRID_DIVISIONS + 1) (hj : j < GRID_DIVISIONS + 1) :
    (⟨((i : ℚ) / (GRID_DIVISIONS : ℚ)) * CHUNK_SIZE,
      getNoiseHeight noise
        ((cx : ℚ) * CHUNK_SIZE + ((i : ℚ) / (GRID_DIVISIONS : ℚ)) * CHUNK_SIZE)
        ((cz : ℚ) * CHUNK_SIZE + ((j : ℚ) / (GRID_DIVISIONS : ℚ)) * CHUNK_SIZE),
      ((j : ℚ) / (GRID_DIVISIONS : ℚ)) * CHUNK_SIZE⟩ : Vec3) ∈
      chunkVertices (createChunk noise cx cz) := by
  have hline : line1Verts noise cx cz i ∈ (createChunk noise cx cz).lines :=
    List.mem_flatMap_of_mem (List.mem_range.mpr hi) (List.mem_cons_self _ _)
  have hv : (⟨((i : ℚ) / (GRID_DIVISIONS : ℚ)) * CHUNK_SIZE,
      getNoiseHeight noise
        ((cx : ℚ) * CHUNK_SIZE + ((i : ℚ) / (GRID_DIVISIONS : ℚ)) * CHUNK_SIZE)
        ((cz : ℚ) * CHUNK_SIZE + ((j : ℚ) / (GRID_DIVISIONS : ℚ)) * CHUNK_SIZE),
      ((j : ℚ) / (GRID_DIVISIONS : ℚ)) * CHUNK_SIZE⟩ : Vec3) ∈ line1Verts noise cx cz i :=
    List.mem_map.mpr ⟨j, List.mem_range.mpr hj, rfl⟩
  exact List.mem_flatMap_of_mem hline hv

/-! ### Claims about the height field, the chunk factory and the key -/

/-- C9: the chunk-coordinate key function is a bijection onto its image
over all integer pairs (including negative coordinates): two chunk
coordinates produce equal string keys `"cx,cz"` if and only if they are
equal, and parsing a produced key back (splitting on the comma and
converting each part to a number, as eviction does) recovers exactly the
original pair. -/
theorem chunkKey_bijective (cx cz cx' cz' : ℤ) :
    (chunkKey cx cz = chunkKey cx' cz' ↔ cx = cx' ∧ cz = cz') ∧
      parseKey (chunkKey cx cz) = (cx, cz) := by
  refine ⟨⟨fun h => chunkKey_inj h, ?_⟩, parseKey_chunkKey cx cz⟩
  rintro ⟨rfl, rfl⟩
  rfl

/-- C4: `getNoiseHeight x z` equals
`HEIGHT_SCALE * noise3D(x * NOISE_SCALE, 0, z * NOISE_SCALE)` with
`NOISE_SCALE = 0.1`, for the (arbitrary, fixed) noise generator; the
function is total by construction. -/
theorem getNoiseHeight_formula (noise : Noise) (x z : ℚ) :
    getNoiseHeight noise x z = HEIGHT_SCALE * noise (x * NOISE_SCALE) 0 (z * NOISE_SCALE) := rfl

/-- C3: the height function is deterministic.  A call is embedded with the
program's mutable streaming state threaded through (`heightCall`): the
returned value is independent of that state, the state is returned
unchanged, and an immediately repeated call returns the identical value.
The noise generator argument is the single generator constructed at
process start (src/main.js line 35), which is never reseeded. -/
theorem getNoiseHeight_deterministic (noise : Noise) (x z : ℚ) (s₁ s₂ : SMState) :
    (heightCall s₁ noise x z).1 = (heightCall s₂ noise x z).1 ∧
      (heightCall s₁ noise x z).2 = s₁ ∧
      (heightCall (heightCall s₁ noise x z).2 noise x z).1 = (heightCall s₁ noise x z).1 :=
  ⟨rfl, rfl, rfl⟩

/-- C5: every vertex built by `createChunk cx cz` has its height sampled
at absolute world coordinates `(cx*CHUNK_SIZE + localX, cz*CHUNK_SIZE + localZ)`,
its local coordinates lie in `[0, CHUNK_SIZE]`, and the chunk group is
placed at `(cx*CHUNK_SIZE, 0, cz*CHUNK_SIZE)`. -/
theorem createChunk_world_sampling (noise : Noise) (cx cz : ℤ) :
    (∀ v ∈ chunkVertices (createChunk noise cx cz),
      v.y = getNoiseHeight noise ((cx : ℚ) * CHUNK_SIZE + v.x) ((cz : ℚ) * CHUNK_SIZE + v.z) ∧
        0 ≤ v.x ∧ v.x ≤ CHUNK_SIZE ∧ 0 ≤ v.z ∧ v.z ≤ CHUNK_SIZE) ∧
    (createChunk noise cx cz).pos =
      { x := (cx : ℚ) * CHUNK_SIZE, y := 0, z := (cz : ℚ) * CHUNK_SIZE } :=
  ⟨fun v hv => chunkVertices_mem noise cx cz v hv, rfl⟩

/-- Witness for C5 at the origin chunk and the zero noise generator. -/
theorem createChunk_world_sampling_witness :
    (⟨0, 0, 0⟩ : Vec3) ∈ chunkVertices (createChunk noise0 0 0) ∧
      ((⟨0, 0, 0⟩ : Vec3).y =
          getNoiseHeight noise0
            (((0 : ℤ) : ℚ) * CHUNK_SIZE + (⟨0, 0, 0⟩ : Vec3).x)
            (((0 : ℤ) : ℚ) * CHUNK_SIZE + (⟨0, 0, 0⟩ : Vec3).z) ∧
        0 ≤ (⟨0, 0, 0⟩ : Vec3).x ∧ (⟨0, 0, 0⟩ : Vec3).x ≤ CHUNK_SIZE ∧
        0 ≤ (⟨0, 0, 0⟩ : Vec3).z ∧ (⟨0, 0, 0⟩ : Vec3).z ≤ CHUNK_SIZE) := by
  have hm : (⟨0, 0, 0⟩ : Vec3) ∈ chunkVertices (createChunk noise0 0 0) := by
    have h := vertex1_mem noise0 0 0 0 0 (by norm_num) (by norm_num)
    simpa [getNoiseHeight, noise0, HEIGHT_SCALE] using h
  exact ⟨hm, (createChunk_world_sampling noise0 0 0).1 _ hm⟩

/-- C2: vertices of horizontally adjacent chunks `(cx, cz)` and
`(cx+1, cz)` that lie on the shared edge (local `x = CHUNK_SIZE` on the
left chunk, local `x = 0` on the right chunk) at the same local `z` have
equal heights. -/
theorem createChunk_edge_heights (noise : Noise) (cx cz : ℤ) (v₁ v₂ : Vec3)
    (h₁ : v₁ ∈ chunkVertices (createChunk noise cx cz))
    (h₂ : v₂ ∈ chunkVertices (createChunk noise (cx + 1) cz))
    (hx₁ : v₁.x = CHUNK_SIZE) (hx₂ : v₂.x = 0) (hz : v₁.z = v₂.z) :
    v₁.y = v₂.y := by
  obtain ⟨hy₁, -⟩ := chunkVertices_mem noise cx cz v₁ h₁
  obtain ⟨hy₂, -⟩ := chunkVertices_mem noise (cx + 1) cz v₂ h₂
  rw [hy₁, hy₂, hx₁, hx₂, hz]
  have harg : (cx : ℚ) * CHUNK_SIZE + CHUNK_SIZE = ((cx + 1 : ℤ) : ℚ) * CHUNK_SIZE + 0 := by
    push_cast
    ring
  rw [harg]

/-- Witness for C2: the edge vertex `(10, 0, 0)` of chunk `(0,0)` against
the edge vertex `(0, 0, 0)` of chunk `(1,0)` under the zero generator. -/
theorem createChunk_edge_heights_witness :
    (⟨10, 0, 0⟩ : Vec3) ∈ chunkVertices (createChunk noise0 0 0) ∧
      (⟨0, 0, 0⟩ : Vec3) ∈ chunkVertices (createChunk noise0 (0 + 1) 0) ∧
      (⟨10, 0, 0⟩ : Vec3).x = CHUNK_SIZE ∧ (⟨0, 0, 0⟩ : Vec3).x = 0 ∧
      (⟨10, 0, 0⟩ : Vec3).z = (⟨0, 0, 0⟩ : Vec3).z ∧
      (⟨10, 0, 0⟩ : Vec3).y = (⟨0, 0, 0⟩ : Vec3).y := by
  have hm₁ : (⟨10, 0, 0⟩ : Vec3) ∈ chunkVertices (createChunk noise0 0 0) := by
    have h := vertex1_mem noise0 0 0 GRID_DIVISIONS 0 (by norm_num) (by norm_num)
    norm_num [getNoiseHeight, noise0, HEIGHT_SCALE, GRID_DIVISIONS, CHUNK_SIZE] at h
    exact h
  have hm₂ : (⟨0, 0, 0⟩ : Vec3) ∈ chunkVertices (createChunk noise0 (0 + 1) 0) := by
    have h := vertex1_mem noise0 (0 + 1) 0 0 0 (by norm_num) (by norm_num)
    simpa [getNoiseHeight, noise0, HEIGHT_SCALE] using h
  refine ⟨hm₁, hm₂, by norm_num [CHUNK_SIZE], rfl, rfl, ?_⟩
  exact createChunk_edge_heights noise0 0 0 _ _ hm₁ hm₂ (by norm_num [CHUNK_SIZE]) rfl rfl

/-- C10: the height function's magnitude is bounded by `HEIGHT_SCALE`
whenever the noise generator's output lies in `[-1, 1]` (the spec's
Perlin-family range); hence every chunk vertex height is as well. -/
theorem getNoiseHeight_amplitude (noise : Noise) (h : NoiseInUnitRange noise) :
    (∀ x z : ℚ, |getNoiseHeight noise x z| ≤ HEIGHT_SCALE) ∧
      ∀ (cx cz : ℤ), ∀ v ∈ chunkVertices (createChunk noise cx cz), |v.y| ≤ HEIGHT_SCALE := by
  have hg : ∀ x z : ℚ, |getNoiseHeight noise x z| ≤ HEIGHT_SCALE := by
    intro x z
    show |HEIGHT_SCALE * noise (x * 0.1) 0 (z * 0.1)| ≤ HEIGHT_SCALE
    rw [abs_mul]
    have habs : |HEIGHT_SCALE| = HEIGHT_SCALE := by norm_num [HEIGHT_SCALE]
    calc |HEIGHT_SCALE| * |noise (x * 0.1) 0 (z * 0.1)|
        ≤ |HEIGHT_SCALE| * 1 := mul_le_mul_of_nonneg_left (h _ _ _) (abs_nonneg _)
      _ = HEIGHT_SCALE := by rw [mul_one, habs]
  refine ⟨hg, fun cx cz v hv => ?_⟩
  rw [(chunkVertices_mem noise cx cz v hv).1]
  exact hg _ _

/-- Witness for C10 with the zero generator. -/
theorem getNoiseHeight_amplitude_witness :
    NoiseInUnitRange noise0 ∧
      ((∀ x z : ℚ, |getNoiseHeight noise0 x z| ≤ HEIGHT_SCALE) ∧
        ∀ (cx cz : ℤ), ∀ v ∈ chunkVertices (createChunk noise0 cx cz), |v.y| ≤ HEIGHT_SCALE) :=
  ⟨fun x y z => by simp [noise0, NoiseInUnitRange],
    getNoiseHeight_amplitude noise0 fun x y z => by simp [noise0, NoiseInUnitRange]⟩

/-! ### Association-list, scene and window lemmas -/

lemma findChunk_cons (k₀ : List Char) (c₀ : ChunkGroup) (rest : List (List Char × ChunkGroup))
    (k : List Char) :
    findChunk ((k₀, c₀) :: rest) k = if k₀ = k then some c₀ else findChunk rest k := rfl

lemma findChunk_append_of_isSome (l l' : List (List Char × ChunkGroup)) (k : List Char)
    (h : (findChunk l k).isSome) : findChunk (l ++ l') k = findChunk l k := by
  induction l with
  | nil => simp [findChunk] at h
  | cons kc rest ih =>
    obtain ⟨k₀, c₀⟩ := kc
    rw [List.cons_append, findChunk_cons, findChunk_cons]
    by_cases hk : k₀ = k
    · rw [if_pos hk, if_pos hk]
    · rw [if_neg hk, if_neg hk]
      rw [findChunk_cons, if_neg hk] at h
      exact ih h

lemma findChunk_append_of_none (l l' : List (List Char × ChunkGroup)) (k : List Char)
    (h : findChunk l k = none) : findChunk (l ++ l') k = findChunk l' k := by
  induction l with
  | nil => rfl
  | cons kc rest ih =>
    obtain ⟨k₀, c₀⟩ := kc
    rw [findChunk_cons] at h
    by_cases hk : k₀ = k
    · rw [if_pos hk] at h
      cases h
    · rw [if_neg hk] at h
      rw [List.cons_append, findChunk_cons, if_neg hk]
      exact ih h

lemma findChunk_eq_none_iff (l : List (List Char × ChunkGroup)) (k : List Char) :
    findChunk l k = none ↔ ∀ kc ∈ l, kc.1 ≠ k := by
  induction l with
  | nil => simp [findChunk]
  | cons kc rest ih =>
    obtain ⟨k₀, c₀⟩ := kc
    rw [findChunk_cons]
    by_cases hk : k₀ = k
    · subst hk
      rw [if_pos rfl]
      constructor
      · intro h
        cases h
      · intro h
        exact absurd rfl (h (k₀, c₀) (List.mem_cons_self _ _))
    · rw [if_neg hk, ih]
      constructor
      · intro h kc hkc
        rcases List.mem_cons.mp hkc with rfl | hm
        · exact hk
        · exact h kc hm
      · intro h kc hkc
        exact h kc (List.mem_cons_of_mem _ hkc)

lemma findChunk_isSome_of_mem (l : List (List Char × ChunkGroup))
    (kc : List Char × ChunkGroup) (h : kc ∈ l) : (findChunk l kc.1).isSome := by
  rcases ho : findChunk l kc.1 with _ | c
  · rw [findChunk_eq_none_iff] at ho
    exact absurd rfl (ho kc h)
  · rfl

lemma findChunk_mem (l : List (List Char × ChunkGroup)) (k : List Char) (c : ChunkGroup)
    (h : findChunk l k = some c) : (k, c) ∈ l := by
  induction l with
  | nil => simp [findChunk] at h
  | cons kc rest ih =>
    obtain ⟨k₀, c₀⟩ := kc
    rw [findChunk_cons] at h
    by_cases hk : k₀ = k
    · rw [if_pos hk] at h
      injection h with h
      subst hk
      subst h
      exact List.mem_cons_self _ _
    · rw [if_neg hk] at h
      exact List.mem_cons_of_mem _ (ih h)

lemma findChunk_filter_out (l : List (List Char × ChunkGroup)) (pcx pcz : ℤ) (k : List Char) :
    findChunk (l.filter fun kc => outKey pcx pcz kc.1) k =
      if outKey pcx pcz k then findChunk l k else none := by
  induction l with
  | nil => simp [findChunk]
  | cons kc rest ih =>
    obtain ⟨k₀, c₀⟩ := kc
    by_cases hk : k₀ = k
    · subst hk
      by_cases hf : outKey pcx pcz k₀
      · simp [List.filter_cons, hf, findChunk_cons]
      · simp [List.filter_cons, hf, findChunk_cons, ih]
    · by_cases hf : outKey pcx pcz k₀
      · simp [List.filter_cons, hf, findChunk_cons, hk, ih]
      · simp [List.filter_cons, hf, findChunk_cons, hk, ih]

lemma findChunk_filter_kept (l : List (List Char × ChunkGroup)) (pcx pcz : ℤ) (k : List Char) :
    findChunk (l.filter fun kc => !(outKey pcx pcz kc.1)) k =
      if outKey pcx pcz k then none else findChunk l k := by
  induction l with
  | nil => simp [findChunk]
  | cons kc rest ih =>
    obtain ⟨k₀, c₀⟩ := kc
    by_cases hk : k₀ = k
    · subst hk
      by_cases hf : outKey pcx pcz k₀
      · simp [List.filter_cons, hf, findChunk_cons, ih]
      · simp [List.filter_cons, hf, findChunk_cons]
    · by_cases hf : outKey pcx pcz k₀
      · simp [List.filter_cons, hf, findChunk_cons, hk, ih]
      · simp [List.filter_cons, hf, findChunk_cons, hk, ih]

lemma removeFirst_cons_self (c : ChunkGroup) (xs : List ChunkGroup) :
    removeFirst (c :: xs) c = xs := by
  simp [removeFirst]

lemma removeFirst_cons_ne (c x : ChunkGroup) (xs : List ChunkGroup) (h : x ≠ c) :
    removeFirst (c :: xs) x = c :: removeFirst xs x := by
  rw [removeFirst, if_neg fun hh => h hh.symm]

lemma foldl_removeFirst_cons (L : List (List Char × ChunkGroup)) (c : ChunkGroup)
    (xs : List ChunkGroup) (h : ∀ kc ∈ L, kc.2 ≠ c) :
    L.foldl (fun sc kc => removeFirst sc kc.2) (c :: xs)
      = c :: L.foldl (fun sc kc => removeFirst sc kc.2) xs := by
  induction L generalizing xs with
  | nil => rfl
  | cons kc rest ih =>
    rw [List.foldl_cons, List.foldl_cons,
      removeFirst_cons_ne _ _ _ (h kc (List.mem_cons_self _ _))]
    exact ih _ fun x hx => h x (List.mem_cons_of_mem _ hx)

lemma evict_scene_eq (l : List (List Char × ChunkGroup)) (pcx pcz : ℤ)
    (hnd : (l.map Prod.snd).Nodup) :
    (l.filter fun kc => outKey pcx pcz kc.1).foldl
        (fun sc kc => removeFirst sc kc.2) (l.map Prod.snd)
      = (l.filter fun kc => !(outKey pcx pcz kc.1)).map Prod.snd := by
  induction l with
  | nil => rfl
  | cons kc rest ih =>
    rw [List.map_cons, List.nodup_cons] at hnd
    obtain ⟨hnotmem, hndr⟩ := hnd
    by_cases hf : outKey pcx pcz kc.1
    · have e1 : List.filter (fun kc => outKey pcx pcz kc.1) (kc :: rest)
          = kc :: List.filter (fun kc => outKey pcx pcz kc.1) rest := by
        simp [List.filter_cons, hf]
      have e2 : List.filter (fun kc => !(outKey pcx pcz kc.1)) (kc :: rest)
          = List.filter (fun kc => !(outKey pcx pcz kc.1)) rest := by
        simp [List.filter_cons, hf]
      rw [e1, e2, List.map_cons, List.foldl_cons, removeFirst_cons_self, ih hndr]
    · have e1 : List.filter (fun kc => outKey pcx pcz kc.1) (kc :: rest)
          = List.filter (fun kc => outKey pcx pcz kc.1) rest := by
        simp [List.filter_cons, hf]
      have e2 : List.filter (fun kc => !(outKey pcx pcz kc.1)) (kc :: rest)
          = kc :: List.filter (fun kc => !(outKey pcx pcz kc.1)) rest := by
        simp [List.filter_cons, hf]
      rw [e1, e2, List.map_cons, List.map_cons, foldl_removeFirst_cons _ _ _ ?hne, ih hndr]
      case hne =>
        intro x hx
        have hx2 : x.2 ∈ rest.map Prod.snd :=
          List.mem_map.mpr ⟨x, List.mem_of_mem_filter hx, rfl⟩
        intro hcon
        rw [hcon] at hx2
        exact hnotmem hx2

lemma mem_windowCoords (pcx pcz : ℤ) (c : ℤ × ℤ) :
    c ∈ windowCoords pcx pcz ↔
      |c.1 - pcx| ≤ RENDER_DISTANCE ∧ |c.2 - pcz| ≤ RENDER_DISTANCE := by
  obtain ⟨x, z⟩ := c
  rw [abs_le, abs_le]
  simp only [windowCoords, intRange, List.mem_flatMap, List.mem_map, List.mem_range,
    RENDER_DISTANCE]
  constructor
  · rintro ⟨a, ⟨k, hk, rfl⟩, b, ⟨m, hm, rfl⟩, heq⟩
    rw [Prod.mk.injEq] at heq
    obtain ⟨rfl, rfl⟩ := heq
    refine ⟨⟨?_, ?_⟩, ?_, ?_⟩ <;> omega
  · rintro ⟨⟨h1, h2⟩, h3, h4⟩
    refine ⟨x, ⟨(x - (pcx - 3)).toNat, by omega, by omega⟩,
      z, ⟨(z - (pcz - 3)).toNat, by omega, by omega⟩, rfl⟩

attribute [irreducible] windowCoords

/-! ### Insertion-phase lemmas -/

lemma ins_find_isSome (noise : Noise) (coords : List (ℤ × ℤ))
    (p : SMState × List (ℤ × ℤ)) (k : List Char) (h : (findChunk p.1.chunks k).isSome) :
    findChunk ((coords.foldl (insertStep noise) p).1.chunks) k = findChunk p.1.chunks k := by
  induction coords generalizing p with
  | nil => rfl
  | cons c rest ih =>
    rw [List.foldl_cons]
    have hstep : findChunk ((insertStep noise p c).1.chunks) k = findChunk p.1.chunks k := by
      unfold insertStep
      by_cases hc : hasKey p.1.chunks (chunkKey c.1 c.2)
      · rw [if_pos hc]
      · rw [if_neg hc]
        exact findChunk_append_of_isSome _ _ _ h
    have hsome : (findChunk ((insertStep noise p c).1.chunks) k).isSome := by
      rw [hstep]
      exact h
    rw [ih (insertStep noise p c) hsome, hstep]

lemma ins_hasKey_mono (noise : Noise) (coords : List (ℤ × ℤ))
    (p : SMState × List (ℤ × ℤ)) (k : List Char) (h : hasKey p.1.chunks k = true) :
    hasKey ((coords.foldl (insertStep noise) p).1.chunks) k = true := by
  unfold hasKey at h ⊢
  rw [ins_find_isSome noise coords p k h]
  exact h

lemma ins_covers (noise : Noise) (coords : List (ℤ × ℤ))
    (p : SMState × List (ℤ × ℤ)) (c : ℤ × ℤ) (hc : c ∈ coords) :
    hasKey ((coords.foldl (insertStep noise) p).1.chunks) (chunkKey c.1 c.2) = true := by
  induction coords generalizing p with
  | nil => cases hc
  | cons c₀ rest ih =>
    rw [List.foldl_cons]
    rcases List.mem_cons.mp hc with rfl | hc'
    · apply ins_hasKey_mono
      unfold insertStep
      by_cases hk : hasKey p.1.chunks (chunkKey c.1 c.2)
      · rw [if_pos hk]
        exact hk
      · rw [if_neg hk]
        have hnone : findChunk p.1.chunks (chunkKey c.1 c.2) = none := by
          revert hk
          unfold hasKey
          cases findChunk p.1.chunks (chunkKey c.1 c.2) <;> simp
        unfold hasKey
        rw [findChunk_append_of_none _ _ _ hnone, findChunk_cons, if_pos rfl]
        rfl
    · exact ih _ hc'

lemma ins_hasKey_new (noise : Noise) (coords : List (ℤ × ℤ))
    (p : SMState × List (ℤ × ℤ)) (k : List Char)
    (h : hasKey ((coords.foldl (insertStep noise) p).1.chunks) k = true) :
    hasKey p.1.chunks k = true ∨ ∃ c ∈ coords, k = chunkKey c.1 c.2 := by
  induction coords generalizing p with
  | nil => exact Or.inl h
  | cons c₀ rest ih =>
    rw [List.foldl_cons] at h
    rcases ih _ h with h' | ⟨c, hc, rfl⟩
    · unfold insertStep at h'
      by_cases hk : hasKey p.1.chunks (chunkKey c₀.1 c₀.2)
      · rw [if_pos hk] at h'
        exact Or.inl h'
      · rw [if_neg hk] at h'
        unfold hasKey at h'
        rcases ho : findChunk p.1.chunks k with _ | c'
        · rw [findChunk_append_of_none _ _ _ ho, findChunk_cons] at h'
          by_cases hkk : chunkKey c₀.1 c₀.2 = k
          · exact Or.inr ⟨c₀, List.mem_cons_self _ _, hkk.symm⟩
          · rw [if_neg hkk] at h'
            simp [findChunk] at h'
        · exact Or.inl (by unfold hasKey; rw [ho]; rfl)
    · exact Or.inr ⟨c, List.mem_cons_of_mem _ hc, rfl⟩

lemma ins_noop (noise : Noise) (coords : List (ℤ × ℤ)) (p : SMState × List (ℤ × ℤ))
    (h : ∀ c ∈ coords, hasKey p.1.chunks (chunkKey c.1 c.2) = true) :
    coords.foldl (insertStep noise) p = p := by
  induction coords with
  | nil => rfl
  | cons c rest ih =>
    rw [List.foldl_cons]
    have hstep : insertStep noise p c = p := by
      unfold insertStep
      rw [if_pos (h c (List.mem_cons_self _ _))]
    rw [hstep]
    exact ih fun c' hc' => h c' (List.mem_cons_of_mem _ hc')

lemma ins_created (noise : Noise) (coords : List (ℤ × ℤ))
    (p : SMState × List (ℤ × ℤ)) (c : ℤ × ℤ)
    (hm : c ∈ (coords.foldl (insertStep noise) p).2) :
    c ∈ p.2 ∨ hasKey p.1.chunks (chunkKey c.1 c.2) = false := by
  induction coords generalizing p with
  | nil => exact Or.inl hm
  | cons c₀ rest ih =>
    rw [List.foldl_cons] at hm
    rcases ih _ hm with h' | h'
    · unfold insertStep at h'
      by_cases hk : hasKey p.1.chunks (chunkKey c₀.1 c₀.2)
      · rw [if_pos hk] at h'
        exact Or.inl h'
      · rw [if_neg hk] at h'
        rcases List.mem_append.mp h' with h'' | h''
        · exact Or.inl h''
        · have hc : c = c₀ := by simpa using h''
          subst hc
          exact Or.inr (by simpa using hk)
    · unfold insertStep at h'
      by_cases hk : hasKey p.1.chunks (chunkKey c₀.1 c₀.2)
      · rw [if_pos hk] at h'
        exact Or.inr h'
      · rw [if_neg hk] at h'
        right
        rcases ho : findChunk p.1.chunks (chunkKey c.1 c.2) with _ | cc
        · unfold hasKey
          rw [ho]
          rfl
        · exfalso
          unfold hasKey at h'
          rw [findChunk_append_of_isSome _ _ _ (by rw [ho]; rfl), ho] at h'
          cases h'

lemma ins_wf (noise : Noise) (coords : List (ℤ × ℤ)) (p : SMState × List (ℤ × ℤ))
    (h : WFKeys p.1.chunks) : WFKeys ((coords.foldl (insertStep noise) p).1.chunks) := by
  induction coords generalizing p with
  | nil => exact h
  | cons c rest ih =>
    rw [List.foldl_cons]
    apply ih
    unfold insertStep
    by_cases hk : hasKey p.1.chunks (chunkKey c.1 c.2)
    · rw [if_pos hk]
      exact h
    · rw [if_neg hk]
      intro kc hkc
      rcases List.mem_append.mp hkc with hm | hm
      · exact h kc hm
      · have he : kc = (chunkKey c.1 c.2, createChunk noise c.1 c.2) := by simpa using hm
        subst he
        show chunkKey c.1 c.2
          = chunkKey (parseKey (chunkKey c.1 c.2)).1 (parseKey (chunkKey c.1 c.2)).2
        rw [parseKey_chunkKey]

lemma ins_inv (noise : Noise) (coords : List (ℤ × ℤ)) (p : SMState × List (ℤ × ℤ))
    (h : Inv noise p.1) : Inv noise ((coords.foldl (insertStep noise) p).1) := by
  induction coords generalizing p with
  | nil => exact h
  | cons c rest ih =>
    rw [List.foldl_cons]
    apply ih
    unfold insertStep
    by_cases hk : hasKey p.1.chunks (chunkKey c.1 c.2)
    · rw [if_pos hk]
      exact h
    · rw [if_neg hk]
      obtain ⟨hwf, hcoh, hnd, hsync⟩ := h
      refine ⟨?_, ?_, ?_, ?_⟩
      · intro kc hkc
        rcases List.mem_append.mp hkc with hm | hm
        · exact hwf kc hm
        · have he : kc = (chunkKey c.1 c.2, createChunk noise c.1 c.2) := by simpa using hm
          subst he
          show chunkKey c.1 c.2
            = chunkKey (parseKey (chunkKey c.1 c.2)).1 (parseKey (chunkKey c.1 c.2)).2
          rw [parseKey_chunkKey]
      · intro kc hkc
        rcases List.mem_append.mp hkc with hm | hm
        · exact hcoh kc hm
        · have he : kc = (chunkKey c.1 c.2, createChunk noise c.1 c.2) := by simpa using hm
          subst he
          show createChunk noise c.1 c.2
            = createChunk noise (parseKey (chunkKey c.1 c.2)).1 (parseKey (chunkKey c.1 c.2)).2
          rw [parseKey_chunkKey]
      · rw [List.map_append, List.nodup_append]
        refine ⟨hnd, List.nodup_singleton _, ?_⟩
        intro a ha hb
        have hab : a = chunkKey c.1 c.2 := by simpa using hb
        subst hab
        obtain ⟨kc, hkc, hfst⟩ := List.mem_map.mp ha
        have hsm : (findChunk p.1.chunks (chunkKey c.1 c.2)).isSome := by
          have := findChunk_isSome_of_mem _ kc hkc
          rwa [hfst] at this
        exact hk (by unfold hasKey; simpa using hsm)
      · show p.1.scene ++ [createChunk noise c.1 c.2]
          = List.map Prod.snd (p.1.chunks ++ [(chunkKey c.1 c.2, createChunk noise c.1 c.2)])
        rw [List.map_append, hsync]
        rfl

/-! ### Update-level lemmas -/

lemma createChunk_inj {noise : Noise} {a b a' b' : ℤ}
    (h : createChunk noise a b = createChunk noise a' b') : a = a' ∧ b = b' := by
  have hp := congrArg ChunkGroup.pos h
  simp only [createChunk, Vec3.mk.injEq] at hp
  obtain ⟨hx, -, hz⟩ := hp
  have hcs : (CHUNK_SIZE : ℚ) ≠ 0 := by norm_num [CHUNK_SIZE]
  constructor
  · exact_mod_cast mul_right_cancel₀ hcs hx
  · exact_mod_cast mul_right_cancel₀ hcs hz

lemma nodup_values (noise : Noise) (l : List (List Char × ChunkGroup)) (hwf : WFKeys l)
    (hcoh : ∀ kc ∈ l, kc.2 = createChunk noise (parseKey kc.1).1 (parseKey kc.1).2)
    (hnd : (l.map Prod.fst).Nodup) : (l.map Prod.snd).Nodup := by
  have hl : l.Nodup := List.Nodup.of_map _ hnd
  refine List.Nodup.map_on ?_ hl
  intro kc1 h1 kc2 h2 heq
  have e1 := hcoh _ h1
  have e2 := hcoh _ h2
  rw [e1, e2] at heq
  have hco := createChunk_inj heq
  have hkeys : kc1.1 = kc2.1 := by
    rw [hwf _ h1, hwf _ h2, hco.1, hco.2]
  exact Prod.ext hkeys (by rw [e1, e2, hco.1, hco.2])

lemma updateChunks_chunks (noise : Noise) (st : SMState) (px pz : ℚ) :
    (updateChunks noise st px pz).1.chunks
      = (((windowCoords ⌊px / CHUNK_SIZE⌋ ⌊pz / CHUNK_SIZE⌋).foldl (insertStep noise)
            (st, [])).1.chunks.filter
          fun kc => !(outKey ⌊px / CHUNK_SIZE⌋ ⌊pz / CHUNK_SIZE⌋ kc.1)) := rfl

lemma updateChunks_scene (noise : Noise) (st : SMState) (px pz : ℚ) :
    (updateChunks noise st px pz).1.scene
      = (((windowCoords ⌊px / CHUNK_SIZE⌋ ⌊pz / CHUNK_SIZE⌋).foldl (insertStep noise)
            (st, [])).1.chunks.filter
          fun kc => outKey ⌊px / CHUNK_SIZE⌋ ⌊pz / CHUNK_SIZE⌋ kc.1).foldl
        (fun sc kc => removeFirst sc kc.2)
        ((windowCoords ⌊px / CHUNK_SIZE⌋ ⌊pz / CHUNK_SIZE⌋).foldl (insertStep noise)
            (st, [])).1.scene := rfl

lemma updateChunks_created (noise : Noise) (st : SMState) (px pz : ℚ) :
    (updateChunks noise st px pz).2.1
      = ((windowCoords ⌊px / CHUNK_SIZE⌋ ⌊pz / CHUNK_SIZE⌋).foldl (insertStep noise)
          (st, [])).2 := rfl

lemma updateChunks_evicted (noise : Noise) (st : SMState) (px pz : ℚ) :
    (updateChunks noise st px pz).2.2
      = (((windowCoords ⌊px / CHUNK_SIZE⌋ ⌊pz / CHUNK_SIZE⌋).foldl (insertStep noise)
            (st, [])).1.chunks.filter
          fun kc => outKey ⌊px / CHUNK_SIZE⌋ ⌊pz / CHUNK_SIZE⌋ kc.1) := rfl

lemma outKey_chunkKey_eq_false_iff (pcx pcz cx cz : ℤ) :
    outKey pcx pcz (chunkKey cx cz) = false ↔
      |cx - pcx| ≤ RENDER_DISTANCE ∧ |cz - pcz| ≤ RENDER_DISTANCE := by
  unfold outKey
  rw [parseKey_chunkKey]
  simp [chebOutside, not_lt]

lemma update_hasKey_iff (noise : Noise) (st : SMState) (px pz : ℚ) (k : List Char)
    (hwf : WFKeys st.chunks) :
    hasKey (updateChunks noise st px pz).1.chunks k = true ↔
      ∃ cx cz : ℤ, k = chunkKey cx cz ∧ |cx - ⌊px / CHUNK_SIZE⌋| ≤ RENDER_DISTANCE ∧
        |cz - ⌊pz / CHUNK_SIZE⌋| ≤ RENDER_DISTANCE := by
  constructor
  · intro h
    rw [updateChunks_chunks] at h
    unfold hasKey at h
    rw [findChunk_filter_kept] at h
    by_cases hout : outKey ⌊px / CHUNK_SIZE⌋ ⌊pz / CHUNK_SIZE⌋ k
    · rw [if_pos hout] at h
      cases h
    · rw [if_neg hout] at h
      have h2 := ins_hasKey_new noise _ _ k (by unfold hasKey; exact h)
      rcases h2 with hold | ⟨c, hc, rfl⟩
      · refine ⟨(parseKey k).1, (parseKey k).2, ?_, ?_⟩
        · unfold hasKey at hold
          rcases ho : findChunk st.chunks k with _ | c'
          · rw [ho] at hold
            cases hold
          · exact hwf _ (findChunk_mem _ _ _ ho)
        · have hof : outKey ⌊px / CHUNK_SIZE⌋ ⌊pz / CHUNK_SIZE⌋ k = false := by
            simpa using hout
          unfold outKey at hof
          simpa [chebOutside, not_lt] using hof
      · obtain ⟨hb1, hb2⟩ := (mem_windowCoords _ _ c).mp hc
        exact ⟨c.1, c.2, rfl, hb1, hb2⟩
  · rintro ⟨cx, cz, rfl, h1, h2⟩
    rw [updateChunks_chunks]
    unfold hasKey
    rw [findChunk_filter_kept, if_neg (by
      have hof : outKey ⌊px / CHUNK_SIZE⌋ ⌊pz / CHUNK_SIZE⌋ (chunkKey cx cz) = false :=
        (outKey_chunkKey_eq_false_iff _ _ _ _).mpr ⟨h1, h2⟩
      simp [hof])]
    have hc : (cx, cz) ∈ windowCoords ⌊px / CHUNK_SIZE⌋ ⌊pz / CHUNK_SIZE⌋ :=
      (mem_windowCoords _ _ (cx, cz)).mpr ⟨h1, h2⟩
    have := ins_covers noise _ (st, []) (cx, cz) hc
    unfold hasKey at this
    exact this

lemma update_wf (noise : Noise) (st : SMState) (px pz : ℚ) (hwf : WFKeys st.chunks) :
    WFKeys (updateChunks noise st px pz).1.chunks := by
  rw [updateChunks_chunks]
  intro kc hkc
  exact ins_wf noise _ (st, []) hwf kc (List.mem_of_mem_filter hkc)

lemma update_inv (noise : Noise) (st : SMState) (px pz : ℚ) (h : Inv noise st) :
    Inv noise (updateChunks noise st px pz).1 := by
  obtain ⟨hwf1, hcoh1, hnd1, hsync1⟩ := ins_inv noise
    (windowCoords ⌊px / CHUNK_SIZE⌋ ⌊pz / CHUNK_SIZE⌋) (st, []) h
  refine ⟨?_, ?_, ?_, ?_⟩
  · exact update_wf noise st px pz h.1
  · rw [updateChunks_chunks]
    intro kc hkc
    exact hcoh1 kc (List.mem_of_mem_filter hkc)
  · rw [updateChunks_chunks]
    exact List.Nodup.sublist ((List.filter_sublist _).map Prod.fst) hnd1
  · rw [updateChunks_scene, updateChunks_chunks, hsync1]
    exact evict_scene_eq _ _ _ (nodup_values noise _ hwf1 hcoh1 hnd1)

/-! ### Claims about the streaming manager -/

/-- C1: after a streaming update with the character at `(px, pz)`, the
resident coordinate set is exactly the inclusive
`(2*RENDER_DISTANCE+1)`-square around the reference chunk coordinate
`(⌊px/CHUNK_SIZE⌋, ⌊pz/CHUNK_SIZE⌋)`, for any prior cache whose keys were
produced by `chunkKey` (which holds for every state the program reaches). -/
theorem updateChunks_resident_window (noise : Noise) (st : SMState) (px pz : ℚ)
    (hwf : WFKeys st.chunks) :
    (∀ kc ∈ (updateChunks noise st px pz).1.chunks,
      ∃ cx cz : ℤ, kc.1 = chunkKey cx cz ∧ |cx - ⌊px / CHUNK_SIZE⌋| ≤ RENDER_DISTANCE ∧
        |cz - ⌊pz / CHUNK_SIZE⌋| ≤ RENDER_DISTANCE) ∧
    ∀ cx cz : ℤ, |cx - ⌊px / CHUNK_SIZE⌋| ≤ RENDER_DISTANCE →
      |cz - ⌊pz / CHUNK_SIZE⌋| ≤ RENDER_DISTANCE →
        hasKey (updateChunks noise st px pz).1.chunks (chunkKey cx cz) = true := by
  constructor
  · intro kc hkc
    have hsome := findChunk_isSome_of_mem _ kc hkc
    exact (update_hasKey_iff noise st px pz kc.1 hwf).mp (by unfold hasKey; simpa using hsome)
  · intro cx cz h1 h2
    exact (update_hasKey_iff noise st px pz _ hwf).mpr ⟨cx, cz, rfl, h1, h2⟩

/-- Witness for C1 starting from the empty cache. -/
theorem updateChunks_resident_window_witness :
    WFKeys (SMState.mk [] []).chunks ∧
      ((∀ kc ∈ (updateChunks noise0 (SMState.mk [] []) 0 0).1.chunks,
        ∃ cx cz : ℤ, kc.1 = chunkKey cx cz ∧
          |cx - ⌊(0 : ℚ) / CHUNK_SIZE⌋| ≤ RENDER_DISTANCE ∧
          |cz - ⌊(0 : ℚ) / CHUNK_SIZE⌋| ≤ RENDER_DISTANCE) ∧
      ∀ cx cz : ℤ, |cx - ⌊(0 : ℚ) / CHUNK_SIZE⌋| ≤ RENDER_DISTANCE →
        |cz - ⌊(0 : ℚ) / CHUNK_SIZE⌋| ≤ RENDER_DISTANCE →
          hasKey (updateChunks noise0 (SMState.mk [] []) 0 0).1.chunks
            (chunkKey cx cz) = true) :=
  ⟨fun kc hkc => absurd hkc (List.not_mem_nil kc),
    updateChunks_resident_window noise0 (SMState.mk [] []) 0 0
      fun kc hkc => absurd hkc (List.not_mem_nil kc)⟩

/-- C7: the streaming update is idempotent: a second call with the same
reference position creates nothing, evicts nothing, and leaves the state
(cache map and display set) unchanged. -/
theorem updateChunks_idempotent (noise : Noise) (st : SMState) (px pz : ℚ)
    (hwf : WFKeys st.chunks) :
    updateChunks noise (updateChunks noise st px pz).1 px pz
      = ((updateChunks noise st px pz).1, [], []) := by
  have hwf1 := update_wf noise st px pz hwf
  set st1 := (updateChunks noise st px pz).1 with hst1
  have hcov : ∀ c ∈ windowCoords ⌊px / CHUNK_SIZE⌋ ⌊pz / CHUNK_SIZE⌋,
      hasKey st1.chunks (chunkKey c.1 c.2) = true := by
    intro c hc
    obtain ⟨hb1, hb2⟩ := (mem_windowCoords _ _ c).mp hc
    exact (update_hasKey_iff noise st px pz (chunkKey c.1 c.2) hwf).mpr
      ⟨c.1, c.2, rfl, hb1, hb2⟩
  have hins : (windowCoords ⌊px / CHUNK_SIZE⌋ ⌊pz / CHUNK_SIZE⌋).foldl (insertStep noise)
      (st1, ([] : List (ℤ × ℤ))) = (st1, []) :=
    ins_noop noise _ _ hcov
  have hall : ∀ kc ∈ st1.chunks,
      outKey ⌊px / CHUNK_SIZE⌋ ⌊pz / CHUNK_SIZE⌋ kc.1 = false := by
    intro kc hkc
    have hsome := findChunk_isSome_of_mem _ kc hkc
    obtain ⟨cx, cz, hkeq, hb1, hb2⟩ := (update_hasKey_iff noise st px pz kc.1 hwf).mp
      (by unfold hasKey; simpa using hsome)
    rw [hkeq]
    exact (outKey_chunkKey_eq_false_iff _ _ _ _).mpr ⟨hb1, hb2⟩
  have e1 : (updateChunks noise st1 px pz).1.chunks = st1.chunks := by
    rw [updateChunks_chunks, hins]
    exact List.filter_eq_self.mpr fun kc hkc => by simp [hall kc hkc]
  have e2 : (updateChunks noise st1 px pz).2.1 = [] := by
    rw [updateChunks_created, hins]
  have e3 : (updateChunks noise st1 px pz).2.2 = [] := by
    rw [updateChunks_evicted, hins]
    exact List.filter_eq_nil_iff.mpr fun kc hkc => by simp [hall kc hkc]
  have e4 : (updateChunks noise st1 px pz).1.scene = st1.scene := by
    rw [updateChunks_scene, hins,
      List.filter_eq_nil_iff.mpr fun kc hkc => by simp [hall kc hkc]]
    rfl
  calc updateChunks noise st1 px pz
      = (⟨(updateChunks noise st1 px pz).1.chunks, (updateChunks noise st1 px pz).1.scene⟩,
          (updateChunks noise st1 px pz).2.1, (updateChunks noise st1 px pz).2.2) := rfl
    _ = (⟨st1.chunks, st1.scene⟩, [], []) := by rw [e1, e2, e3, e4]
    _ = (st1, [], []) := rfl

/-- Witness for C7 starting from the empty cache. -/
theorem updateChunks_idempotent_witness :
    WFKeys (SMState.mk [] []).chunks ∧
      updateChunks noise0 (updateChunks noise0 (SMState.mk [] []) 0 0).1 0 0
        = ((updateChunks noise0 (SMState.mk [] []) 0 0).1, [], []) :=
  ⟨fun kc hkc => absurd hkc (List.not_mem_nil kc),
    updateChunks_idempotent noise0 (SMState.mk [] []) 0 0
      fun kc hkc => absurd hkc (List.not_mem_nil kc)⟩

/-- C8: a coordinate already resident in the cache is never rebuilt by an
update whose window covers it: its cache entry is unchanged and no
`createChunk` call is made for it. -/
theorem updateChunks_no_rebuild (noise : Noise) (st : SMState) (px pz : ℚ)
    (cx cz : ℤ) (c : ChunkGroup)
    (hres : findChunk st.chunks (chunkKey cx cz) = some c)
    (h1 : |cx - ⌊px / CHUNK_SIZE⌋| ≤ RENDER_DISTANCE)
    (h2 : |cz - ⌊pz / CHUNK_SIZE⌋| ≤ RENDER_DISTANCE) :
    findChunk (updateChunks noise st px pz).1.chunks (chunkKey cx cz) = some c ∧
      (cx, cz) ∉ (updateChunks noise st px pz).2.1 := by
  have hof : outKey ⌊px / CHUNK_SIZE⌋ ⌊pz / CHUNK_SIZE⌋ (chunkKey cx cz) = false :=
    (outKey_chunkKey_eq_false_iff _ _ _ _).mpr ⟨h1, h2⟩
  constructor
  · rw [updateChunks_chunks, findChunk_filter_kept, if_neg (by simp [hof]),
      ins_find_isSome noise _ (st, ([] : List (ℤ × ℤ))) _ (by rw [hres]; rfl)]
    exact hres
  · intro hmem
    rw [updateChunks_created] at hmem
    rcases ins_created noise _ _ _ hmem with h | h
    · simp at h
    · have h' : hasKey st.chunks (chunkKey cx cz) = false := h
      unfold hasKey at h'
      rw [hres] at h'
      cases h'

/-- Witness for C8: a cache holding the origin chunk, updated from the
origin again. -/
theorem updateChunks_no_rebuild_witness :
    findChunk (SMState.mk [(chunkKey 0 0, createChunk noise0 0 0)]
        [createChunk noise0 0 0]).chunks (chunkKey 0 0) = some (createChunk noise0 0 0) ∧
      |(0 : ℤ) - ⌊(0 : ℚ) / CHUNK_SIZE⌋| ≤ RENDER_DISTANCE ∧
      (findChunk (updateChunks noise0 (SMState.mk [(chunkKey 0 0, createChunk noise0 0 0)]
          [createChunk noise0 0 0]) 0 0).1.chunks (chunkKey 0 0)
          = some (createChunk noise0 0 0) ∧
        ((0 : ℤ), (0 : ℤ)) ∉ (updateChunks noise0
          (SMState.mk [(chunkKey 0 0, createChunk noise0 0 0)]
            [createChunk noise0 0 0]) 0 0).2.1) := by
  have hres : findChunk (SMState.mk [(chunkKey 0 0, createChunk noise0 0 0)]
      [createChunk noise0 0 0]).chunks (chunkKey 0 0) = some (createChunk noise0 0 0) := by
    rw [show (SMState.mk [(chunkKey 0 0, createChunk noise0 0 0)]
        [createChunk noise0 0 0]).chunks = [(chunkKey 0 0, createChunk noise0 0 0)] from rfl,
      findChunk_cons, if_pos rfl]
  have hb : |(0 : ℤ) - ⌊(0 : ℚ) / CHUNK_SIZE⌋| ≤ RENDER_DISTANCE := by
    norm_num [CHUNK_SIZE, RENDER_DISTANCE]
  exact ⟨hres, hb, updateChunks_no_rebuild noise0 _ 0 0 0 0 _ hres hb hb⟩

/-- C6: a resident coordinate whose Chebyshev distance from the reference
chunk coordinate computed in this very call exceeds `RENDER_DISTANCE` is
removed from the cache and its chunk object is removed from the scene by
that single call. -/
theorem updateChunks_evicts (noise : Noise) (st : SMState) (px pz : ℚ)
    (cx cz : ℤ) (c : ChunkGroup) (hinv : Inv noise st)
    (hres : findChunk st.chunks (chunkKey cx cz) = some c)
    (hout : RENDER_DISTANCE < |cx - ⌊px / CHUNK_SIZE⌋| ∨
      RENDER_DISTANCE < |cz - ⌊pz / CHUNK_SIZE⌋|) :
    findChunk (updateChunks noise st px pz).1.chunks (chunkKey cx cz) = none ∧
      c ∉ (updateChunks noise st px pz).1.scene := by
  have hot : outKey ⌊px / CHUNK_SIZE⌋ ⌊pz / CHUNK_SIZE⌋ (chunkKey cx cz) = true := by
    unfold outKey
    rw [parseKey_chunkKey]
    simpa [chebOutside] using hout
  constructor
  · rw [updateChunks_chunks, findChunk_filter_kept, if_pos hot]
  · intro hsc
    obtain ⟨hwf', hcoh', hnd', hsync'⟩ := update_inv noise st px pz hinv
    rw [hsync'] at hsc
    obtain ⟨kc, hkc, hsnd⟩ := List.mem_map.mp hsc
    have hmem := findChunk_mem _ _ _ hres
    have hc_eq : c = createChunk noise cx cz := by
      have := hinv.2.1 _ hmem
      simpa [parseKey_chunkKey] using this
    rw [hcoh' kc hkc, hc_eq] at hsnd
    obtain ⟨hex, hez⟩ := createChunk_inj hsnd
    have hsome := findChunk_isSome_of_mem _ kc hkc
    obtain ⟨cx', cz', hkeq, hb1, hb2⟩ :=
      (update_hasKey_iff noise st px pz kc.1 hinv.1).mp (by unfold hasKey; simpa using hsome)
    rw [hkeq, parseKey_chunkKey] at hex hez
    simp only [] at hex hez
    rcases hout with h | h
    · rw [hex] at hb1
      exact absurd hb1 (not_le.mpr h)
    · rw [hez] at hb2
      exact absurd hb2 (not_le.mpr h)

/-- Witness for C6: a cache holding the far-away chunk `(100, 0)`, updated
with the character at the origin. -/
theorem updateChunks_evicts_witness :
    Inv noise0 (SMState.mk [(chunkKey 100 0, createChunk noise0 100 0)]
        [createChunk noise0 100 0]) ∧
      findChunk (SMState.mk [(chunkKey 100 0, createChunk noise0 100 0)]
          [createChunk noise0 100 0]).chunks (chunkKey 100 0)
        = some (createChunk noise0 100 0) ∧
      RENDER_DISTANCE < |(100 : ℤ) - ⌊(0 : ℚ) / CHUNK_SIZE⌋| ∧
      (findChunk (updateChunks noise0 (SMState.mk [(chunkKey 100 0, createChunk noise0 100 0)]
            [createChunk noise0 100 0]) 0 0).1.chunks (chunkKey 100 0) = none ∧
        createChunk noise0 100 0 ∉ (updateChunks noise0
          (SMState.mk [(chunkKey 100 0, createChunk noise0 100 0)]
            [createChunk noise0 100 0]) 0 0).1.scene) := by
  have hinv : Inv noise0 (SMState.mk [(chunkKey 100 0, createChunk noise0 100 0)]
      [createChunk noise0 100 0]) := by
    refine ⟨?_, ?_, ?_, rfl⟩
    · intro kc hkc
      have he : kc = (chunkKey 100 0, createChunk noise0 100 0) := by simpa using hkc
      subst he
      show chunkKey 100 0 = chunkKey (parseKey (chunkKey 100 0)).1 (parseKey (chunkKey 100 0)).2
      rw [parseKey_chunkKey]
    · intro kc hkc
      have he : kc = (chunkKey 100 0, createChunk noise0 100 0) := by simpa using hkc
      subst he
      show createChunk noise0 100 0
        = createChunk noise0 (parseKey (chunkKey 100 0)).1 (parseKey (chunkKey 100 0)).2
      rw [parseKey_chunkKey]
    · simp
  have hres : findChunk (SMState.mk [(chunkKey 100 0, createChunk noise0 100 0)]
      [createChunk noise0 100 0]).chunks (chunkKey 100 0)
      = some (createChunk noise0 100 0) := by
    rw [show (SMState.mk [(chunkKey 100 0, createChunk noise0 100 0)]
        [createChunk noise0 100 0]).chunks = [(chunkKey 100 0, createChunk noise0 100 0)]
        from rfl,
      findChunk_cons, if_pos rfl]
  have hfar : RENDER_DISTANCE < |(100 : ℤ) - ⌊(0 : ℚ) / CHUNK_SIZE⌋| := by
    norm_num [CHUNK_SIZE, RENDER_DISTANCE]
  exact ⟨hinv, hres, hfar,
    updateChunks_evicts noise0 _ 0 0 100 0 _ hinv hres (Or.inl hfar)⟩

end TerrainGen
